import Mathlib

/-!
Shallow embedding of the native-benchmark kernel library
(`src/native-benchmark/src/lib.rs`).

Buffers are modelled as Lean lists: byte buffers as `List Nat` with every
element below 256, int32 buffers as `List Int` with values in the signed
32-bit range.  Machine arithmetic is explicit: `wrap32` / `wrap64` are
two's-complement wrap-around on `Int`, bitwise operations are `Nat.xor` /
`&&&` on the unsigned bit patterns, and the SWAR / AVX2 word operations
act on little-endian byte packings built with `fromLE` / `toLE`.  Null
pointers are modelled with `Option`: `none` is the null pointer, `some`
carries the pointee (for byte buffers, together with the byte address,
which drives the SWAR alignment head).
-/

/-- Two's-complement wrap into the signed 32-bit range (`i32` arithmetic). -/
def wrap32 (x : Int) : Int := (x + 2147483648) % 4294967296 - 2147483648

/-- Two's-complement wrap into the signed 64-bit range (`i64` arithmetic). -/
def wrap64 (x : Int) : Int :=
  (x + 9223372036854775808) % 18446744073709551616 - 9223372036854775808

/-- The unsigned 32-bit pattern of a signed 32-bit value. -/
def toU32 (x : Int) : Nat := (x % 4294967296).toNat

/-- Bitwise AND of two `i32` lanes (`_mm256_and_si256`, one 32-bit lane). -/
def and32 (x y : Int) : Int := wrap32 ((toU32 x &&& toU32 y : Nat) : Int)

/-- Little-endian value of a byte list (`uN::from_le_bytes`, generalised). -/
def fromLE : List Nat → Nat
  | [] => 0
  | b :: bs => b + 256 * fromLE bs

/-- The `n` little-endian bytes of a value (`uN::to_le_bytes`, generalised). -/
def toLE : Nat → Nat → List Nat
  | 0, _ => []
  | n + 1, x => x % 256 :: toLE n (x / 256)

/-- `bench_add_numbers`: the FFM probe, `a + b` on `i64`. -/
def bench_add_numbers (a b : Int) : Int := wrap64 (a + b)

/-- `jni_add_numbers_impl`: the JNI probe; the environment and class
handles take no part in the arithmetic, so they are modelled as `Unit`. -/
def jni_add_numbers_impl (_env _class : Unit) (a b : Int) : Int := wrap64 (a + b)

/-- A byte-buffer pointer: `none` is the null pointer, otherwise the byte
address of the buffer together with its contents. -/
abbrev BytePtr := Option (Nat × List Nat)

/-- An int32-buffer pointer: `none` is the null pointer, otherwise the
buffer contents. -/
abbrev IntPtr := Option (List Int)

/-- Loop body of `process_secure_vector`: byte-by-byte XOR with the key. -/
def processSecureVectorRun (key : Nat) (data : List Nat) : List Nat :=
  data.map (fun b => b ^^^ key)

/-- `process_secure_vector`: null check, then byte-wise XOR in place. -/
def process_secure_vector (ptr : BytePtr) (key : Nat) : BytePtr :=
  match ptr with
  | none => none
  | some (addr, data) => some (addr, processSecureVectorRun key data)

/-- The broadcast SWAR key word: `u64::from_le_bytes([key; 8])`. -/
def key64 (key : Nat) : Nat := fromLE (List.replicate 8 key)

/-- Length of the SWAR alignment head: bytes processed one at a time until
`addr + offset` is 8-byte aligned or the buffer is exhausted. -/
def headLen (addr len : Nat) : Nat := min ((8 - addr % 8) % 8) len

/-- The aligned middle of `swar_process_secure_vector`: `n` full 8-byte
chunks, each XORed as one `u64` against the broadcast `key64` word, then
the remaining tail bytes one at a time. -/
def swarChunksGo (key : Nat) : Nat → List Nat → List Nat
  | 0, l => l.map (fun b => b ^^^ key)
  | n + 1, l =>
    toLE 8 (fromLE (l.take 8) ^^^ key64 key) ++
      swarChunksGo key n (l.drop 8)

/-- Chunked middle and tail of `swar_process_secure_vector`: the chunk
count is `len64 = (len - offset) / 8`, as in the source. -/
def swarChunks (key : Nat) (l : List Nat) : List Nat :=
  swarChunksGo key (l.length / 8) l

/-- Body of `swar_process_secure_vector` for a non-null pointer at byte
address `addr`: alignment head, 8-byte SWAR chunks, tail. -/
def swarRun (addr key : Nat) (data : List Nat) : List Nat :=
  (data.take (headLen addr data.length)).map (fun b => b ^^^ key) ++
    swarChunks key (data.drop (headLen addr data.length))

/-- `swar_process_secure_vector`: null check, then the SWAR traversal. -/
def swar_process_secure_vector (ptr : BytePtr) (key : Nat) : BytePtr :=
  match ptr with
  | none => none
  | some (addr, data) => some (addr, swarRun addr key data)

/-- The broadcast AVX2 key vector: `_mm256_set1_epi8(key)`, 32 copies. -/
def key256 (key : Nat) : Nat := fromLE (List.replicate 32 key)

/-- The 32-byte chunk loop of `process_vector_avx2`: `n` chunks, each
XORed as one 256-bit vector against the broadcast key vector, then the
remaining tail bytes one at a time. -/
def avx2Go (key : Nat) : Nat → List Nat → List Nat
  | 0, l => l.map (fun b => b ^^^ key)
  | n + 1, l =>
    toLE 32 (fromLE (l.take 32) ^^^ key256 key) ++
      avx2Go key n (l.drop 32)

/-- Body of `process_vector_avx2` for a non-null pointer: the loop runs
while `i + 32 <= len`, i.e. `len / 32` times, then the scalar tail. -/
def avx2Run (key : Nat) (data : List Nat) : List Nat :=
  avx2Go key (data.length / 32) data

/-- `process_vector_avx2`: null check, then the AVX2 traversal. -/
def process_vector_avx2 (ptr : BytePtr) (key : Nat) : BytePtr :=
  match ptr with
  | none => none
  | some (addr, data) => some (addr, avx2Run key data)

/-- One scalar modular-add step: `sum = a[i] + b[i]` on `i32`, then
`if sum >= q { sum - q } else { sum }`. -/
def scalarStep (q x y : Int) : Int :=
  if q ≤ wrap32 (x + y) then wrap32 (wrap32 (x + y) - q) else wrap32 (x + y)

/-- Loop body of `poly_modular_add` for non-null pointers. -/
def polyModularAddRun (q : Int) (a b : List Int) : List Int :=
  List.zipWith (fun x y => scalarStep q x y) a b

/-- `poly_modular_add`: null checks, then the scalar loop; the result is
the post-call contents of the `a` and `b` buffers. -/
def poly_modular_add (a b : IntPtr) (q : Int) : IntPtr × IntPtr :=
  match a, b with
  | some av, some bv => (some (polyModularAddRun q av bv), some bv)
  | _, _ => (a, b)

/-- One step of `bless_poly_modular_add`:
`sub = (sum >= q) as i32 * q; a[i] = sum - sub`. -/
def blessStep (q x y : Int) : Int :=
  wrap32 (wrap32 (x + y) - (if q ≤ wrap32 (x + y) then (1 : Int) else 0) * q)

/-- Loop body of `bless_poly_modular_add` for non-null pointers. -/
def blessPolyModularAddRun (q : Int) (a b : List Int) : List Int :=
  List.zipWith (fun x y => blessStep q x y) a b

/-- `bless_poly_modular_add`: null checks, then the branchless loop. -/
def bless_poly_modular_add (a b : IntPtr) (q : Int) : IntPtr × IntPtr :=
  match a, b with
  | some av, some bv => (some (blessPolyModularAddRun q av bv), some bv)
  | _, _ => (a, b)

/-- One AVX2 lane of `poly_add_avx2`: lane-wise `i32` add, signed
greater-than compare with `q - 1` producing an all-ones or all-zeros
mask, AND with the broadcast `q`, lane-wise subtract. -/
def avx2Lane (q x y : Int) : Int :=
  wrap32 (wrap32 (x + y) -
    and32 q (if wrap32 (q - 1) < wrap32 (x + y) then (-1 : Int) else 0))

/-- The 8-lane chunk loop of `poly_add_avx2`: `n` vector chunks, then the
scalar algorithm on the remaining tail. -/
def polyAddAvx2Go (q : Int) : Nat → List Int → List Int → List Int
  | 0, a, b => List.zipWith (fun x y => scalarStep q x y) a b
  | n + 1, a, b =>
    List.zipWith (fun x y => avx2Lane q x y) (a.take 8) (b.take 8) ++
      polyAddAvx2Go q n (a.drop 8) (b.drop 8)

/-- Body of `poly_add_avx2` for non-null pointers: the vector loop runs
while `i + 8 <= len`, i.e. `len / 8` times, then the scalar tail. -/
def polyAddAvx2Run (q : Int) (a b : List Int) : List Int :=
  polyAddAvx2Go q (a.length / 8) a b

/-- `poly_add_avx2`: null checks, then the vectorised loop. -/
def poly_add_avx2 (a b : IntPtr) (q : Int) : IntPtr × IntPtr :=
  match a, b with
  | some av, some bv => (some (polyAddAvx2Run q av bv), some bv)
  | _, _ => (a, b)

/-! ## Bitwise helper lemmas -/

theorem xor_shiftRight (x y n : Nat) : (x ^^^ y) >>> n = x >>> n ^^^ y >>> n := by
  apply Nat.eq_of_testBit_eq
  intro i
  simp [Nat.testBit_shiftRight, Nat.testBit_xor]

theorem xor_div_256 (x y : Nat) : (x ^^^ y) / 256 = x / 256 ^^^ y / 256 := by
  have h : ∀ z : Nat, z / 256 = z >>> 8 := fun z => by
    rw [Nat.shiftRight_eq_div_pow]
  rw [h (x ^^^ y), h x, h y, xor_shiftRight]

theorem xor_mod_256 (x y : Nat) : (x ^^^ y) % 256 = x % 256 ^^^ y % 256 := by
  have h : (256 : Nat) = 2 ^ 8 := by norm_num
  rw [h]
  apply Nat.eq_of_testBit_eq
  intro i
  simp only [Nat.testBit_mod_two_pow, Nat.testBit_xor]
  cases hd : decide (i < 8) <;> simp

/-- XOR acts independently on the low byte and the rest. -/
theorem xor_byte_decomp (b k B K : Nat) (hb : b < 256) (hk : k < 256) :
    (b + 256 * B) ^^^ (k + 256 * K) = (b ^^^ k) + 256 * (B ^^^ K) := by
  have h1 := xor_mod_256 (b + 256 * B) (k + 256 * K)
  have h2 := xor_div_256 (b + 256 * B) (k + 256 * K)
  have hm1 : (b + 256 * B) % 256 = b := by omega
  have hm2 : (k + 256 * K) % 256 = k := by omega
  have hd1 : (b + 256 * B) / 256 = B := by omega
  have hd2 : (k + 256 * K) / 256 = K := by omega
  rw [hm1, hm2] at h1
  rw [hd1, hd2] at h2
  omega

theorem xor_lt_256 {b k : Nat} (hb : b < 256) (hk : k < 256) : b ^^^ k < 256 := by
  have h : (256 : Nat) = 2 ^ 8 := by norm_num
  rw [h] at hb hk ⊢
  exact Nat.xor_lt_two_pow hb hk

/-- XOR-ing the little-endian packing of a byte list against the packed
broadcast key and unpacking again is byte-wise XOR with the key. -/
theorem toLE_xor_fromLE (key : Nat) (hk : key < 256) :
    ∀ l : List Nat, (∀ b ∈ l, b < 256) →
      toLE l.length (fromLE l ^^^ fromLE (List.replicate l.length key)) =
        l.map (fun b => b ^^^ key) := by
  intro l
  induction l with
  | nil => intro _; rfl
  | cons b bs ih =>
    intro h
    have hb : b < 256 := h b (List.mem_cons_self b bs)
    have hbs : ∀ x ∈ bs, x < 256 := fun x hx => h x (List.mem_cons_of_mem _ hx)
    have hbk : b ^^^ key < 256 := xor_lt_256 hb hk
    simp only [List.length_cons, List.replicate_succ, fromLE, List.map_cons]
    rw [xor_byte_decomp b key _ _ hb hk]
    simp only [toLE]
    have hmod :
        ((b ^^^ key) + 256 * (fromLE bs ^^^ fromLE (List.replicate bs.length key))) % 256 =
          b ^^^ key := by omega
    have hdiv :
        ((b ^^^ key) + 256 * (fromLE bs ^^^ fromLE (List.replicate bs.length key))) / 256 =
          fromLE bs ^^^ fromLE (List.replicate bs.length key) := by omega
    rw [hmod, hdiv, ih hbs]

/-! ## Masking traversal equivalences -/

/-- The SWAR chunk loop is byte-wise XOR, provided the fuel never
overruns the buffer (`8 * n ≤ length`). -/
theorem swarChunksGo_eq (key : Nat) (hk : key < 256) :
    ∀ (n : Nat) (l : List Nat), 8 * n ≤ l.length → (∀ b ∈ l, b < 256) →
      swarChunksGo key n l = l.map (fun b => b ^^^ key) := by
  intro n
  induction n with
  | zero => intro l _ _; rfl
  | succ n ih =>
    intro l hlen hl
    have htake : (l.take 8).length = 8 := by rw [List.length_take]; omega
    have hchunk :=
      toLE_xor_fromLE key hk (l.take 8) (fun b hb => hl b (List.take_subset _ _ hb))
    rw [htake] at hchunk
    simp only [swarChunksGo, key64]
    rw [hchunk,
      ih (l.drop 8) (by rw [List.length_drop]; omega)
        (fun b hb => hl b (List.drop_subset _ _ hb)),
      ← List.map_append, List.take_append_drop]

/-- `swarChunks` is byte-wise XOR. -/
theorem swarChunks_eq (key : Nat) (hk : key < 256) (l : List Nat)
    (hl : ∀ b ∈ l, b < 256) :
    swarChunks key l = l.map (fun b => b ^^^ key) :=
  swarChunksGo_eq key hk (l.length / 8) l (by omega) hl

/-- The whole SWAR traversal (alignment head, chunks, tail) is byte-wise
XOR, for every byte address. -/
theorem swarRun_eq (addr key : Nat) (hk : key < 256) (data : List Nat)
    (hd : ∀ b ∈ data, b < 256) :
    swarRun addr key data = data.map (fun b => b ^^^ key) := by
  unfold swarRun
  rw [swarChunks_eq key hk _ (fun b hb => hd b (List.drop_subset _ _ hb)),
    ← List.map_append, List.take_append_drop]

/-- The AVX2 chunk loop is byte-wise XOR, provided the fuel never
overruns the buffer (`32 * n ≤ length`). -/
theorem avx2Go_eq (key : Nat) (hk : key < 256) :
    ∀ (n : Nat) (l : List Nat), 32 * n ≤ l.length → (∀ b ∈ l, b < 256) →
      avx2Go key n l = l.map (fun b => b ^^^ key) := by
  intro n
  induction n with
  | zero => intro l _ _; rfl
  | succ n ih =>
    intro l hlen hl
    have htake : (l.take 32).length = 32 := by rw [List.length_take]; omega
    have hchunk :=
      toLE_xor_fromLE key hk (l.take 32) (fun b hb => hl b (List.take_subset _ _ hb))
    rw [htake] at hchunk
    simp only [avx2Go, key256]
    rw [hchunk,
      ih (l.drop 32) (by rw [List.length_drop]; omega)
        (fun b hb => hl b (List.drop_subset _ _ hb)),
      ← List.map_append, List.take_append_drop]

/-- The whole AVX2 masking traversal is byte-wise XOR. -/
theorem avx2Run_eq (key : Nat) (hk : key < 256) (data : List Nat)
    (hd : ∀ b ∈ data, b < 256) :
    avx2Run key data = data.map (fun b => b ^^^ key) :=
  avx2Go_eq key hk (data.length / 32) data (by omega) hd

/-! ## Machine-integer lemmas -/

theorem wrap32_eq_self {z : Int} (h1 : -2147483648 ≤ z) (h2 : z < 2147483648) :
    wrap32 z = z := by
  unfold wrap32; omega

theorem wrap32_lb (z : Int) : -2147483648 ≤ wrap32 z := by
  unfold wrap32; omega

theorem wrap32_ub (z : Int) : wrap32 z < 2147483648 := by
  unfold wrap32; omega

theorem wrap64_eq_self {z : Int} (h1 : -9223372036854775808 ≤ z)
    (h2 : z < 9223372036854775808) : wrap64 z = z := by
  unfold wrap64; omega

theorem and32_zero (x : Int) : and32 x 0 = 0 := by
  simp [and32, toU32, wrap32]

/-- AND against the all-ones lane mask is the identity on valid `i32`
values that are nonnegative. -/
theorem and32_neg_one {q : Int} (h0 : 0 ≤ q) (h1 : q < 2147483648) :
    and32 q (-1) = q := by
  unfold and32 toU32
  have hm : ((-1 : Int) % 4294967296).toNat = 4294967295 := by decide
  have hq : ((q : Int) % 4294967296).toNat = q.toNat := by omega
  rw [hm, hq]
  have h4 : (4294967295 : Nat) = 2 ^ 32 - 1 := by norm_num
  rw [h4, Nat.and_pow_two_sub_one_eq_mod]
  have h32 : (2 : Nat) ^ 32 = 4294967296 := by norm_num
  have h5 : q.toNat % 2 ^ 32 = q.toNat := by rw [h32]; omega
  rw [h5, Int.toNat_of_nonneg h0]
  exact wrap32_eq_self (by omega) h1

/-! ## Modular-add step lemmas -/

/-- Under the caller contract (`0 < q <= 2^30`, operands reduced), the
scalar step computes exact modular addition. -/
theorem scalarStep_eq_emod {q x y : Int} (hq : 0 < q) (hq30 : q ≤ 1073741824)
    (hx0 : 0 ≤ x) (hxq : x < q) (hy0 : 0 ≤ y) (hyq : y < q) :
    scalarStep q x y = (x + y) % q := by
  unfold scalarStep
  rw [wrap32_eq_self (z := x + y) (by omega) (by omega)]
  by_cases h : q ≤ x + y
  · rw [if_pos h, wrap32_eq_self (by omega) (by omega),
      ← Int.emod_sub_cancel (x + y) q, Int.emod_eq_of_lt (by omega) (by omega)]
  · rw [if_neg h, Int.emod_eq_of_lt (by omega) (by omega)]

/-- The branchless step agrees with the branchy scalar step on every
input whatsoever. -/
theorem blessStep_eq_scalarStep (q x y : Int) : blessStep q x y = scalarStep q x y := by
  unfold blessStep scalarStep
  by_cases h : q ≤ wrap32 (x + y)
  · rw [if_pos h, if_pos h, one_mul]
  · rw [if_neg h, if_neg h, zero_mul, sub_zero]
    exact wrap32_eq_self (wrap32_lb _) (wrap32_ub _)

/-- For a positive `i32` modulus, the AVX2 lane (signed compare against
`q - 1`, AND mask, subtract) agrees with the branchy scalar step on every
input. -/
theorem avx2Lane_eq_scalarStep {q : Int} (hq : 0 < q) (hq31 : q < 2147483648)
    (x y : Int) : avx2Lane q x y = scalarStep q x y := by
  unfold avx2Lane scalarStep
  rw [wrap32_eq_self (z := q - 1) (by omega) (by omega)]
  by_cases h : q ≤ wrap32 (x + y)
  · rw [if_pos (by omega : q - 1 < wrap32 (x + y)), if_pos h,
      and32_neg_one (by omega) hq31]
  · rw [if_neg (by omega : ¬q - 1 < wrap32 (x + y)), if_neg h, and32_zero, sub_zero]
    exact wrap32_eq_self (wrap32_lb _) (wrap32_ub _)

/-! ## zipWith helper lemmas -/

theorem zipWith_congr_fun {α β γ : Type} (f g : α → β → γ)
    (h : ∀ x y, f x y = g x y) :
    ∀ (l₁ : List α) (l₂ : List β), List.zipWith f l₁ l₂ = List.zipWith g l₁ l₂ := by
  intro l₁
  induction l₁ with
  | nil => intro l₂; rfl
  | cons x xs ih =>
    intro l₂
    cases l₂ with
    | nil => rfl
    | cons y ys => simp only [List.zipWith_cons_cons, h, ih]

theorem zipWith_congr_mem {α β γ : Type} (f g : α → β → γ) :
    ∀ (l₁ : List α) (l₂ : List β),
      (∀ x ∈ l₁, ∀ y ∈ l₂, f x y = g x y) →
      List.zipWith f l₁ l₂ = List.zipWith g l₁ l₂ := by
  intro l₁
  induction l₁ with
  | nil => intro l₂ _; rfl
  | cons x xs ih =>
    intro l₂ h
    cases l₂ with
    | nil => rfl
    | cons y ys =>
      simp only [List.zipWith_cons_cons]
      rw [h x (List.mem_cons_self x xs) y (List.mem_cons_self y ys),
        ih ys (fun a ha b hb =>
          h a (List.mem_cons_of_mem _ ha) b (List.mem_cons_of_mem _ hb))]

theorem zipWith_take_drop {α β γ : Type} (f : α → β → γ) (l₁ : List α)
    (l₂ : List β) (n : Nat) :
    List.zipWith f (l₁.take n) (l₂.take n) ++
      List.zipWith f (l₁.drop n) (l₂.drop n) = List.zipWith f l₁ l₂ := by
  rw [← List.take_zipWith, ← List.drop_zipWith, List.take_append_drop]

/-! ## Modular-add loop equivalences -/

/-- The branchless loop body equals the scalar loop body on all inputs. -/
theorem blessPolyModularAddRun_eq (q : Int) (a b : List Int) :
    blessPolyModularAddRun q a b = polyModularAddRun q a b :=
  zipWith_congr_fun _ _ (fun x y => blessStep_eq_scalarStep q x y) a b

/-- The AVX2 chunk loop equals the scalar loop for every fuel value, for
a positive `i32` modulus. -/
theorem polyAddAvx2Go_eq {q : Int} (hq : 0 < q) (hq31 : q < 2147483648) :
    ∀ (n : Nat) (a b : List Int),
      polyAddAvx2Go q n a b = List.zipWith (fun x y => scalarStep q x y) a b := by
  intro n
  induction n with
  | zero => intro a b; rfl
  | succ n ih =>
    intro a b
    simp only [polyAddAvx2Go]
    rw [ih (a.drop 8) (b.drop 8),
      zipWith_congr_fun _ _ (fun x y => avx2Lane_eq_scalarStep hq hq31 x y)
        (a.take 8) (b.take 8)]
    exact zipWith_take_drop _ a b 8

/-- The AVX2 modular-add body equals the scalar body. -/
theorem polyAddAvx2Run_eq {q : Int} (hq : 0 < q) (hq31 : q < 2147483648)
    (a b : List Int) : polyAddAvx2Run q a b = polyModularAddRun q a b :=
  polyAddAvx2Go_eq hq hq31 (a.length / 8) a b

/-- Under the caller contract, the scalar loop computes element-wise
modular addition. -/
theorem polyModularAddRun_emod {q : Int} (hq : 0 < q) (hq30 : q ≤ 1073741824)
    (a b : List Int) (ha : ∀ x ∈ a, 0 ≤ x ∧ x < q) (hb : ∀ x ∈ b, 0 ≤ x ∧ x < q) :
    polyModularAddRun q a b = List.zipWith (fun x y => (x + y) % q) a b :=
  zipWith_congr_mem _ _ a b (fun x hx y hy =>
    scalarStep_eq_emod hq hq30 (ha x hx).1 (ha x hx).2 (hb y hy).1 (hb y hy).2)

/-! ## Claim theorems -/

/-- C1 counterexample: with modulus `q = 2^31 - 1 > 0` and operands
`2^31 - 2` (all within `[0, q)`), the `i32` addition in the scalar kernel
overflows and wraps, so the stored value is not `(a[i] + b[i]) mod q`. -/
theorem poly_modular_add_overflow_counterexample :
    poly_modular_add (some [2147483646]) (some [2147483646]) 2147483647 ≠
      (some [(2147483646 + 2147483646 : Int) % 2147483647], some [2147483646]) := by
  decide

/-- C1 (amended): for every length, modulus `q` with `0 < q ≤ 2^30` (so
`a[i] + b[i] < 2q` cannot overflow the signed 32-bit range) and buffers
with every element in `[0, q)`, after the call each `a[i]` equals
`(a[i] + b[i]) mod q`, and `b` is unchanged. -/
theorem poly_modular_add_correct {q : Int} (a b : List Int)
    (hlen : a.length = b.length) (hq : 0 < q) (hq30 : q ≤ 1073741824)
    (ha : ∀ x ∈ a, 0 ≤ x ∧ x < q) (hb : ∀ x ∈ b, 0 ≤ x ∧ x < q) :
    poly_modular_add (some a) (some b) q =
      (some (List.zipWith (fun x y => (x + y) % q) a b), some b) := by
  simp only [poly_modular_add]
  rw [polyModularAddRun_emod hq hq30 a b ha hb]

/-- C1 witness: the amended theorem applies at `q = 97`,
`a = [96, 50]`, `b = [96, 20]`. -/
theorem poly_modular_add_correct_witness :
    poly_modular_add (some [96, 50]) (some [96, 20]) 97 =
      (some (List.zipWith (fun x y => (x + y) % 97) [96, 50] [96, 20]),
        some [96, 20]) :=
  poly_modular_add_correct [96, 50] [96, 20] (by decide) (by decide) (by decide)
    (by decide) (by decide)

/-- C2: for every valid input (`q > 0` an `i32`, equal lengths, operands
in `[0, q)`), the AVX2 modular-add kernel produces the same output
buffers as the scalar kernel, and the lane mask condition `sum > q - 1`
decides exactly the scalar condition `sum >= q`. -/
theorem poly_add_avx2_eq_scalar {q : Int} (a b : List Int) (s : Int)
    (hq : 0 < q) (hq31 : q < 2147483648) (hlen : a.length = b.length)
    (ha : ∀ x ∈ a, 0 ≤ x ∧ x < q) (hb : ∀ x ∈ b, 0 ≤ x ∧ x < q) :
    poly_add_avx2 (some a) (some b) q = poly_modular_add (some a) (some b) q ∧
      (q - 1 < s ↔ q ≤ s) := by
  refine ⟨?_, by omega⟩
  simp only [poly_add_avx2, poly_modular_add]
  rw [polyAddAvx2Run_eq hq hq31 a b]

/-- C2 witness: the equivalence applies at `q = 97` on length-9 buffers,
exercising one full 8-lane vector chunk and a scalar tail element. -/
theorem poly_add_avx2_eq_scalar_witness :
    poly_add_avx2 (some [0, 1, 2, 3, 4, 5, 6, 7, 96])
        (some [96, 95, 94, 93, 92, 91, 90, 89, 96]) 97 =
      poly_modular_add (some [0, 1, 2, 3, 4, 5, 6, 7, 96])
        (some [96, 95, 94, 93, 92, 91, 90, 89, 96]) 97 ∧
      ((97 : Int) - 1 < 50 ↔ (97 : Int) ≤ 50) :=
  poly_add_avx2_eq_scalar [0, 1, 2, 3, 4, 5, 6, 7, 96]
    [96, 95, 94, 93, 92, 91, 90, 89, 96] 50 (by decide) (by decide) (by decide)
    (by decide) (by decide)

/-- C3: for every valid input, the branchless modular-add kernel produces
output identical to the scalar kernel. -/
theorem bless_poly_modular_add_eq_scalar {q : Int} (a b : List Int)
    (hq : 0 < q) (hlen : a.length = b.length)
    (ha : ∀ x ∈ a, 0 ≤ x ∧ x < q) (hb : ∀ x ∈ b, 0 ≤ x ∧ x < q) :
    bless_poly_modular_add (some a) (some b) q =
      poly_modular_add (some a) (some b) q := by
  simp only [bless_poly_modular_add, poly_modular_add]
  rw [blessPolyModularAddRun_eq q a b]

/-- C3 witness: the equivalence applies at `q = 97` on concrete buffers
exercising both the reduced and unreduced branch. -/
theorem bless_poly_modular_add_eq_scalar_witness :
    bless_poly_modular_add (some [5, 10, 95]) (some [3, 90, 5]) 97 =
      poly_modular_add (some [5, 10, 95]) (some [3, 90, 5]) 97 :=
  bless_poly_modular_add_eq_scalar [5, 10, 95] [3, 90, 5] (by decide) (by decide)
    (by decide) (by decide)

/-- C4: for every buffer (any length, any byte address) and every key
byte, the scalar, SWAR and AVX2 masking kernels produce byte-identical
buffers, each byte replaced by `byte XOR key`. -/
theorem masking_variants_agree (addr key : Nat) (data : List Nat)
    (hdata : ∀ b ∈ data, b < 256) (hkey : key < 256) :
    swar_process_secure_vector (some (addr, data)) key =
        process_secure_vector (some (addr, data)) key ∧
      process_vector_avx2 (some (addr, data)) key =
        process_secure_vector (some (addr, data)) key ∧
      process_secure_vector (some (addr, data)) key =
        some (addr, data.map (fun b => b ^^^ key)) := by
  refine ⟨?_, ?_, rfl⟩
  · simp only [swar_process_secure_vector, process_secure_vector,
      processSecureVectorRun]
    rw [swarRun_eq addr key hkey data hdata]
  · simp only [process_vector_avx2, process_secure_vector, processSecureVectorRun]
    rw [avx2Run_eq key hkey data hdata]

/-- C4 witness: the agreement applies at address 5 and key `0x3C` on a
33-byte buffer, exercising the SWAR alignment head, both chunk loops and
both tails. -/
theorem masking_variants_agree_witness :
    swar_process_secure_vector (some (5, List.range 33)) 60 =
        process_secure_vector (some (5, List.range 33)) 60 ∧
      process_vector_avx2 (some (5, List.range 33)) 60 =
        process_secure_vector (some (5, List.range 33)) 60 ∧
      process_secure_vector (some (5, List.range 33)) 60 =
        some (5, (List.range 33).map (fun b => b ^^^ 60)) :=
  masking_variants_agree 5 60 (List.range 33) (by decide) (by decide)

/-- C5: masking is an involution for every variant: applying the same
kernel twice with the same key restores the buffer exactly. -/
theorem masking_involution (addr key : Nat) (data : List Nat)
    (hdata : ∀ b ∈ data, b < 256) (hkey : key < 256) :
    process_secure_vector (process_secure_vector (some (addr, data)) key) key =
        some (addr, data) ∧
      swar_process_secure_vector
          (swar_process_secure_vector (some (addr, data)) key) key =
        some (addr, data) ∧
      process_vector_avx2 (process_vector_avx2 (some (addr, data)) key) key =
        some (addr, data) := by
  have hxor : (data.map (fun b => b ^^^ key)).map (fun b => b ^^^ key) = data := by
    rw [List.map_map]
    have hcomp : ((fun b : Nat => b ^^^ key) ∘ fun b : Nat => b ^^^ key) = id := by
      funext b
      simp [Function.comp, Nat.xor_cancel_right]
    rw [hcomp, List.map_id]
  have hmem : ∀ b ∈ data.map (fun b => b ^^^ key), b < 256 := by
    intro b hb
    rcases List.mem_map.mp hb with ⟨c, hc, rfl⟩
    exact xor_lt_256 (hdata c hc) hkey
  refine ⟨?_, ?_, ?_⟩
  · simp only [process_secure_vector, processSecureVectorRun]
    rw [hxor]
  · simp only [swar_process_secure_vector]
    rw [swarRun_eq addr key hkey data hdata, swarRun_eq addr key hkey _ hmem, hxor]
  · simp only [process_vector_avx2]
    rw [avx2Run_eq key hkey data hdata, avx2Run_eq key hkey _ hmem, hxor]

/-- C5 witness: the involution applies at address 3 and key `0xAF` on a
37-byte buffer. -/
theorem masking_involution_witness :
    process_secure_vector
        (process_secure_vector (some (3, List.range 37)) 175) 175 =
      some (3, List.range 37) ∧
      swar_process_secure_vector
          (swar_process_secure_vector (some (3, List.range 37)) 175) 175 =
        some (3, List.range 37) ∧
      process_vector_avx2
          (process_vector_avx2 (some (3, List.range 37)) 175) 175 =
        some (3, List.range 37) :=
  masking_involution 3 175 (List.range 37) (by decide) (by decide)

/-- C6: every buffer-taking kernel called with a null pointer (for
modular-add: either pointer) returns early with the memory state
unchanged, for any key, modulus and other buffer. -/
theorem null_pointer_no_op :
    (∀ key : Nat, process_secure_vector none key = none) ∧
      (∀ key : Nat, swar_process_secure_vector none key = none) ∧
      (∀ key : Nat, process_vector_avx2 none key = none) ∧
      (∀ (b : IntPtr) (q : Int), poly_modular_add none b q = (none, b)) ∧
      (∀ (a : IntPtr) (q : Int), poly_modular_add a none q = (a, none)) ∧
      (∀ (b : IntPtr) (q : Int), bless_poly_modular_add none b q = (none, b)) ∧
      (∀ (a : IntPtr) (q : Int), bless_poly_modular_add a none q = (a, none)) ∧
      (∀ (b : IntPtr) (q : Int), poly_add_avx2 none b q = (none, b)) ∧
      (∀ (a : IntPtr) (q : Int), poly_add_avx2 a none q = (a, none)) := by
  refine ⟨fun _ => rfl, fun _ => rfl, fun _ => rfl, ?_, ?_, ?_, ?_, ?_, ?_⟩ <;>
    (intro p q; cases p <;> rfl)

/-- C7 counterexample: the scalar kernel on `a = [5, 10, 95]`,
`b = [3, 90, 5]`, `q = 97` does not yield `[8, 6, 3]`
(the second element is `(10 + 90) - 97 = 3`, not `6`). -/
theorem modular_add_scenario_counterexample :
    (poly_modular_add (some [5, 10, 95]) (some [3, 90, 5]) 97).1 ≠
      some [8, 6, 3] := by
  decide

/-- C7 (amended): modular-add on `a = [5, 10, 95]`, `b = [3, 90, 5]`,
`q = 97` yields `[8, 3, 3]`, identically via all three variants. -/
theorem modular_add_scenario :
    poly_modular_add (some [5, 10, 95]) (some [3, 90, 5]) 97 =
        (some [8, 3, 3], some [3, 90, 5]) ∧
      bless_poly_modular_add (some [5, 10, 95]) (some [3, 90, 5]) 97 =
        (some [8, 3, 3], some [3, 90, 5]) ∧
      poly_add_avx2 (some [5, 10, 95]) (some [3, 90, 5]) 97 =
        (some [8, 3, 3], some [3, 90, 5]) := by
  decide

/-- C8: whenever the mathematical sum is representable in signed 64 bits,
both the FFM probe and the JNI probe return exactly `a + b`. -/
theorem add_probes_correct (a b : Int)
    (h1 : -9223372036854775808 ≤ a + b) (h2 : a + b < 9223372036854775808) :
    bench_add_numbers a b = a + b ∧ jni_add_numbers_impl () () a b = a + b :=
  ⟨wrap64_eq_self h1 h2, wrap64_eq_self h1 h2⟩

/-- C8 witness: the probe correctness applies at `a = -5`, `b = 3`. -/
theorem add_probes_correct_witness :
    bench_add_numbers (-5) 3 = -5 + 3 ∧ jni_add_numbers_impl () () (-5) 3 = -5 + 3 :=
  add_probes_correct (-5) 3 (by decide) (by decide)

/-- C9: all three modular-add kernels mutate only buffer `a`; buffer `b`
is unchanged after the call. -/
theorem modular_add_b_readonly (a b : List Int) (q : Int) :
    (poly_modular_add (some a) (some b) q).2 = some b ∧
      (bless_poly_modular_add (some a) (some b) q).2 = some b ∧
      (poly_add_avx2 (some a) (some b) q).2 = some b :=
  ⟨rfl, rfl, rfl⟩

/-- C10: key `0` is an identity for every masking variant: the buffer is
left byte-for-byte unchanged. -/
theorem masking_key_zero_identity (addr : Nat) (data : List Nat)
    (hdata : ∀ b ∈ data, b < 256) :
    process_secure_vector (some (addr, data)) 0 = some (addr, data) ∧
      swar_process_secure_vector (some (addr, data)) 0 = some (addr, data) ∧
      process_vector_avx2 (some (addr, data)) 0 = some (addr, data) := by
  have hid : data.map (fun b => b ^^^ 0) = data := by
    have hfun : (fun b : Nat => b ^^^ 0) = id := by funext b; simp
    rw [hfun, List.map_id]
  refine ⟨?_, ?_, ?_⟩
  · simp only [process_secure_vector, processSecureVectorRun]
    rw [hid]
  · simp only [swar_process_secure_vector]
    rw [swarRun_eq addr 0 (by omega) data hdata, hid]
  · simp only [process_vector_avx2]
    rw [avx2Run_eq 0 (by omega) data hdata, hid]

/-- C10 witness: the zero-key identity applies at address 7 on a 40-byte
buffer. -/
theorem masking_key_zero_identity_witness :
    process_secure_vector (some (7, List.range 40)) 0 = some (7, List.range 40) ∧
      swar_process_secure_vector (some (7, List.range 40)) 0 =
        some (7, List.range 40) ∧
      process_vector_avx2 (some (7, List.range 40)) 0 = some (7, List.range 40) :=
  masking_key_zero_identity 7 (List.range 40) (by decide)
